import Mathlib

/-!
Shallow embedding of `fatiando/inversion/pgrav3d.py` (3D gravity inversion using
right rectangular prisms) and proofs about it.

Conventions of the embedding:
* Python floats are modelled as `ℚ` (all operations the claims touch are exact
  field arithmetic).
* A mesh cell is a dictionary with keys `x1,x2,y1,y2,z1,z2` (bounds) and `value`;
  `mesh.ravel()` is the flattened cell list, `mesh.shape = (nz, ny, nx)`.
* A gravity data grid (`fatiando.gravity.io` format) is a dictionary with keys
  `x`, `y`, `z` (coordinate arrays) and optionally `value`; an observation set is
  a Python dictionary from component name to grid, modelled as an association
  list in key-insertion order with unique keys.
* The module-level mutable state (`_jacobian`, `_mesh`, `_data`, `_data_vector`)
  is modelled as an explicit `Session` record threaded through the operations.
* The external forward kernel `fatiando.gravity.prism.g*` is a pure function,
  modelled as an abstract parameter `Kernel` (component name, density, prism
  bounds, observation point ↦ field value), matching the call
  `function(1., x1, x2, y1, y2, z1, z2, x, y, z)`.
* Python exceptions (`AssertionError`, `KeyError`, `IndexError`) become an
  `Except SolveErr` result, with the error names the specification uses.
-/

namespace Pgrav3d

/-- Bounding coordinates of one rectangular prism cell: the `x1,x2,y1,y2,z1,z2`
keys of a mesh cell dictionary. -/
structure Bounds where
  x1 : ℚ
  x2 : ℚ
  y1 : ℚ
  y2 : ℚ
  z1 : ℚ
  z2 : ℚ
deriving DecidableEq, Repr

/-- One mesh cell: six bounding coordinates plus the mutable `value` slot. -/
structure Cell where
  bounds : Bounds
  value : ℚ
deriving DecidableEq, Repr

/-- Prism mesh: dimension counts `(nx, ny, nz)` (numpy `shape = (nz, ny, nx)`)
and the flattened cell list (`mesh.ravel()`, x fastest, then y, then z). -/
structure Mesh where
  nx : ℕ
  ny : ℕ
  nz : ℕ
  cells : List Cell
deriving DecidableEq, Repr

/-- Total parameter count, numpy `mesh.size` (product of the shape). -/
def Mesh.size (m : Mesh) : ℕ := m.nx * m.ny * m.nz

/-- The flattened cell sequence `mesh.ravel()`. -/
def Mesh.ravel (m : Mesh) : List Cell := m.cells

/-- One gravity data grid, as loaded by `fatiando.gravity.io`: parallel
coordinate arrays `x`, `y`, `z` and the (optional) observed `value` array. -/
structure Grid where
  x : List ℚ
  y : List ℚ
  z : List ℚ
  value : Option (List ℚ)
deriving DecidableEq, Repr

/-- Observation set: Python dictionary from gravity component name to data
grid, in key-insertion order. -/
abbrev Data := List (String × Grid)

/-- Dictionary read `data[f]` / membership test `f in data.keys()`: the value
of the first (unique) binding of key `f`, if any. -/
def getField (d : Data) (f : String) : Option Grid :=
  match d with
  | [] => none
  | p :: rest => if p.1 = f then some p.2 else getField rest f

/-- Dictionary write `data[f] = g` on a present key: replaces the binding of
key `f`, keeping insertion order (Python dict item assignment). -/
def updateField (d : Data) (f : String) (g : Grid) : Data :=
  d.map (fun p => if p.1 = f then (f, g) else p)

/-- The forward kernel `fatiando.gravity.prism.g*` (external collaborator):
component name, density, prism bounds, observation point `(x, y, z)` ↦ field
contribution.  The dispatch dictionary `_calculators` is modelled by passing
the component name as the first argument. -/
abbrev Kernel := String → ℚ → Bounds → ℚ → ℚ → ℚ → ℚ

/-- The module-level mutable state: globals `_jacobian`, `_mesh`, `_data`,
`_data_vector`, each `None` until bound. -/
structure Session where
  jacobian : Option (List (List ℚ))
  mesh : Option Mesh
  data : Option Data
  dataVector : Option (List ℚ)
deriving DecidableEq, Repr

/-- Failure outcomes of the module's operations, named as in the
specification's error taxonomy (Python raises `AssertionError`, `KeyError` or
`IndexError` at the corresponding places). -/
inductive SolveErr where
  | invalidComponent (key : String)
  | missingMesh
  | missingData
  | missingValueKey (key : String)
  | missingObservedValues
  | dimensionMismatch
  | emptyData
deriving DecidableEq, Repr

/-- Function `clear()`: erase all module-level state. -/
def clear : Session := ⟨none, none, none, none⟩

/-- Function `fill_mesh(estimate, mesh)`: `for value, cell in zip(estimate,
mesh.ravel()): cell['value'] = value`.  Python's `zip` truncates to the shorter
sequence, so exactly the first `min (estimate.length) (cells.length)` cells are
written and the rest keep their old value. -/
def fill_mesh (estimate : List ℚ) (mesh : Mesh) : Mesh :=
  { mesh with
    cells :=
      (estimate.zip mesh.ravel).map (fun p => { p.2 with value := p.1 }) ++
        mesh.ravel.drop estimate.length }

/-- The fixed canonical component order `gz, gxx, gxy, gxz, gyy, gyz, gzz`
(the order of the `if` blocks in `extract_data_vector`, of the field loop in
`calc_adjustment` and `_build_pgrav3d_jacobian`, and the recognized-key list in
`solve`). -/
def canonicalFields : List String :=
  ["gz", "gxx", "gxy", "gxz", "gyy", "gyz", "gzz"]

/-- Sequential body of `extract_data_vector`: for each field of `fs` in order,
if the field is a key of `data`, append `data[field]['value']` to the vector
(`none` models the `KeyError` raised when a present grid lacks `'value'`). -/
def fieldsVector (data : Data) : List String → Option (List ℚ)
  | [] => some []
  | f :: rest =>
    match getField data f with
    | none => fieldsVector data rest
    | some g =>
      match g.value with
      | none => none
      | some vs =>
        match fieldsVector data rest with
        | none => none
        | some r => some (vs ++ r)

/-- Function `extract_data_vector(data)` (with the default `inplace=False`, the
only mode this module itself uses): concatenates the `value` arrays of the
present components in canonical order. -/
def extract_data_vector (data : Data) : Option (List ℚ) :=
  fieldsVector data canonicalFields

/-- One Jacobian row: for one observation point `(x, y, z)` of component `f`,
the kernel contribution of every mesh cell with unit density, in flattened cell
order (`[function(1., cell['x1'], ..., x, y, z) for cell in _mesh.ravel()]`). -/
def jacobianRow (kernel : Kernel) (mesh : Mesh) (f : String) (x y z : ℚ) : List ℚ :=
  mesh.ravel.map (fun cell => kernel f 1 cell.bounds x y z)

/-- Observation points of component `f`: `zip(_data[f]['x'], _data[f]['y'],
_data[f]['z'])` (Python `zip` truncates to the shortest array). -/
def obsPoints (g : Grid) : List (ℚ × ℚ × ℚ) :=
  g.x.zip (g.y.zip g.z)

/-- The block of Jacobian rows contributed by component `f`: one row per
observation point, in observation-array order (empty when `f` is absent). -/
def componentBlock (kernel : Kernel) (mesh : Mesh) (data : Data) (f : String) :
    List (List ℚ) :=
  match getField data f with
  | none => []
  | some g => (obsPoints g).map (fun t => jacobianRow kernel mesh f t.1 t.2.1 t.2.2)

/-- The full Jacobian row list assembled by `_build_pgrav3d_jacobian` on a cache
miss: the field loop `for field in ['gz', ..., 'gzz']: if field in _data.keys():
for x, y, z in coordinates: append_row(row)`. -/
def jacobianRows (kernel : Kernel) (data : Data) (mesh : Mesh) : List (List ℚ) :=
  canonicalFields.flatMap (componentBlock kernel mesh data)

/-- Number of forward-kernel invocations a full assembly performs: one per
(observation row, mesh cell) pair. -/
def kernelCallCount (data : Data) (mesh : Mesh) : ℕ :=
  (canonicalFields.flatMap (fun f =>
    match getField data f with
    | none => []
    | some g => obsPoints g)).length * mesh.ravel.length

/-- Function `_build_pgrav3d_jacobian(estimate)`: asserts `_mesh` and `_data`
are bound, then returns the cached `_jacobian` if present, else assembles it
and stores it in the session.  The `estimate` argument is never read.  The
third component of the result counts the forward-kernel calls performed (zero
on a cache hit). -/
def build_pgrav3d_jacobian (kernel : Kernel) (s : Session) (_estimate : List ℚ) :
    Except SolveErr (List (List ℚ) × Session × ℕ) :=
  match s.mesh with
  | none => .error .missingMesh
  | some mesh =>
    match s.data with
    | none => .error .missingData
    | some data =>
      match s.jacobian with
      | some j => .ok (j, s, 0)
      | none =>
        let j := jacobianRows kernel data mesh
        .ok (j, { s with jacobian := some j }, kernelCallCount data mesh)

/-- Dot product `numpy.dot(row, v)` (observation row times estimate). -/
def dotVec (row v : List ℚ) : ℚ :=
  ((row.zip v).map (fun p => p.1 * p.2)).sum

/-- Matrix–vector product `numpy.dot(jacobian, estimate)`. -/
def matVec (m : List (List ℚ)) (v : List ℚ) : List ℚ :=
  m.map (fun row => dotVec row v)

/-- Pointwise vector subtraction `a - b` of equal-length numpy arrays. -/
def vecSub (a b : List ℚ) : List ℚ :=
  (a.zip b).map (fun p => p.1 - p.2)

/-- Function `calc_adjustment(estimate, grid=False)`: builds (or fetches) the
Jacobian and returns `numpy.dot(jacobian, estimate)` together with the updated
session. -/
def calc_adjustment (kernel : Kernel) (s : Session) (estimate : List ℚ) :
    Except SolveErr (List ℚ × Session) :=
  match build_pgrav3d_jacobian kernel s estimate with
  | .error e => .error e
  | .ok (jac, s', _) => .ok (matVec jac estimate, s')

/-- Grid-splitting loop of `calc_adjustment(estimate, grid=True)`: `for field in
['gz', ..., 'gzz']: if field in _data.keys(): ndata = len(_data[field]['x']);
adjusted_grid[field]['value'] = adjusted[:ndata]; adjusted = adjusted[ndata:]`.
State is the grid dictionary built so far and the remaining vector. -/
def splitFields (data : Data) : List String → List ℚ → Data × List ℚ
  | [], adjusted => (data, adjusted)
  | f :: rest, adjusted =>
    match getField data f with
    | none => splitFields data rest adjusted
    | some g =>
      let nd := g.x.length
      splitFields (updateField data f { g with value := some (adjusted.take nd) })
        rest (adjusted.drop nd)

/-- Function `calc_adjustment(estimate, grid=True)`.  In the source,
`adjusted_grid = _data.copy()` is a SHALLOW dictionary copy: the per-component
inner dictionaries are shared with the bound `_data`, so the slice assignments
`adjusted_grid[field]['value'] = adjusted[:ndata]` write through into the
session's observation set.  The embedding makes that mutation explicit: the
returned session stores the returned grid as its bound data. -/
def calc_adjustment_grid (kernel : Kernel) (s : Session) (estimate : List ℚ) :
    Except SolveErr (Data × Session) :=
  match build_pgrav3d_jacobian kernel s estimate with
  | .error e => .error e
  | .ok (jac, s', _) =>
    match s'.data with
    | none => .error .missingData
    | some data =>
      let adjusted := matVec jac estimate
      let grid := (splitFields data canonicalFields adjusted).1
      .ok (grid, { s' with data := some grid })

/-- Function `residuals(data, estimate)`: `adjusted = calc_adjustment(estimate)`;
then `key = data.keys()[0]` (`IndexError` on an empty dictionary); if the first
grid has a `'value'` key the data vector is re-extracted from `data`, else the
cached `_data_vector` is used (`AssertionError` — the "missing observed values"
error — when it is `None`); returns `data_vector - adjusted`. -/
def residuals (kernel : Kernel) (s : Session) (data : Data) (estimate : List ℚ) :
    Except SolveErr (List ℚ × Session) :=
  match calc_adjustment kernel s estimate with
  | .error e => .error e
  | .ok (adjusted, s') =>
    match data.head? with
    | none => .error .emptyData
    | some (key, g) =>
      if g.value.isSome then
        match extract_data_vector data with
        | none => .error (.missingValueKey key)
        | some dv => .ok (vecSub dv adjusted, s')
      else
        match s'.dataVector with
        | none => .error .missingObservedValues
        | some dv => .ok (vecSub dv adjusted, s')

/-- A dense row of `_build_pgrav3d_first_deriv`'s matrix with `ncols` columns,
`row[a] = 1` and `row[b] = -1`, all other entries the initial `numpy.zeros`.
The `b` assignment is tested first since in the source it is executed second
and would overwrite the `a` assignment if the indices coincided. -/
def derivRow (ncols a b : ℕ) : List ℚ :=
  (List.range ncols).map (fun c => if c = b then -1 else if c = a then 1 else 0)

/-- Rows of the x-direction loop of `_build_pgrav3d_first_deriv`: for
`k < nz`, `j < ny`, `i < nx - 1` (in that nesting order), the running counter
`param_i` equals the flattened index `i + j*nx + k*nx*ny` (it advances by one
per inner step plus one extra after each `j` iteration), and the row pairs
`param_i` with `param_i + 1`. -/
def xDerivRows (nx ny nz : ℕ) : List (List ℚ) :=
  (List.range nz).flatMap (fun k =>
    (List.range ny).flatMap (fun j =>
      (List.range (nx - 1)).map (fun i =>
        derivRow (nx * ny * nz) (i + j * nx + k * (nx * ny))
          (i + j * nx + k * (nx * ny) + 1))))

/-- Rows of the y-direction loop: for `k < nz`, `j < ny - 1`, `i < nx`,
`param_i = i + j*nx + k*nx*ny` (it advances by one per inner step plus `nx`
after each `k` iteration), paired with `param_i + nx`. -/
def yDerivRows (nx ny nz : ℕ) : List (List ℚ) :=
  (List.range nz).flatMap (fun k =>
    (List.range (ny - 1)).flatMap (fun j =>
      (List.range nx).map (fun i =>
        derivRow (nx * ny * nz) (i + j * nx + k * (nx * ny))
          (i + j * nx + k * (nx * ny) + nx))))

/-- Rows of the z-direction loop: for `k < nz - 1`, `j < ny`, `i < nx`,
`param_i = i + j*nx + k*nx*ny` (it advances by one per inner step), paired
with `param_i + nx*ny`. -/
def zDerivRows (nx ny nz : ℕ) : List (List ℚ) :=
  (List.range (nz - 1)).flatMap (fun k =>
    (List.range ny).flatMap (fun j =>
      (List.range nx).map (fun i =>
        derivRow (nx * ny * nz) (i + j * nx + k * (nx * ny))
          (i + j * nx + k * (nx * ny) + nx * ny))))

/-- Function `_build_pgrav3d_first_deriv()`: the finite-difference
first-derivative matrix, one row per adjacent-cell pair, x-direction rows
first, then y-direction, then z-direction (`deriv_i` increases monotonically
through the three loop nests).  `nz, ny, nx = _mesh.shape`. -/
def build_pgrav3d_first_deriv (nx ny nz : ℕ) : List (List ℚ) :=
  xDerivRows nx ny nz ++ yDerivRows nx ny nz ++ zDerivRows nx ny nz

/-- Modelled from the spec: the fixed relative-improvement tolerance of the
solver's convergence test (§4.4 step 8); `fatiando.inversion.solvers` is not
part of the provided sources.  Its exact value is irrelevant to the claims. -/
def lmTolerance : ℚ := 1 / 10 ^ 4

/-- Modelled from the spec: one outer iteration's step search of `solvers.lm`
(§4.4 steps 5–7).  `stepFn current marq` stands for the normal-equations trial
step (left abstract: the spec gives it no closed form); a trial is accepted
only when its goal value is strictly lower than the current one, and on
rejection the Marquardt parameter is multiplied by `lm_step` and the step is
retried, up to `max_steps` attempts.  Returns the accepted trial, its goal
value and the shrunk Marquardt parameter, or `none` when retries exhaust. -/
def tryStep (goal : List ℚ → ℚ) (stepFn : List ℚ → ℚ → List ℚ) (current : List ℚ)
    (curGoal : ℚ) (lm_step : ℚ) : ℚ → ℕ → Option (List ℚ × ℚ × ℚ)
  | _, 0 => none
  | marq, n + 1 =>
    let trial := stepFn current marq
    let tg := goal trial
    if tg < curGoal then some (trial, tg, marq / lm_step)
    else tryStep goal stepFn current curGoal lm_step (marq * lm_step) n

/-- Modelled from the spec: the outer iteration loop of `solvers.lm` (§4.4).
Carries the current estimate, its goal value, the Marquardt parameter and the
accepted goal history; stops on step exhaustion, on convergence (relative
improvement below `lmTolerance`) or when the iteration budget runs out. -/
def lmIterate (goal : List ℚ → ℚ) (stepFn : List ℚ → ℚ → List ℚ)
    (lm_step : ℚ) (max_steps : ℕ) :
    ℕ → List ℚ → ℚ → ℚ → List ℚ → List ℚ × List ℚ
  | 0, current, _, _, goals => (current, goals)
  | it + 1, current, curGoal, marq, goals =>
    match tryStep goal stepFn current curGoal lm_step marq max_steps with
    | none => (current, goals)
    | some (trial, tg, marq') =>
      if curGoal - tg < lmTolerance * curGoal then (trial, goals ++ [tg])
      else lmIterate goal stepFn lm_step max_steps it trial tg marq' (goals ++ [tg])

/-- Modelled from the spec: `solvers.lm(data_vector, cov, initial, lm_start,
lm_step, max_steps, max_it)` (§4.4), with the composite goal function and the
normal-equations step passed in as `goal` and `stepFn` since
`fatiando.inversion.solvers` is not part of the provided sources.  Per the
§4.4 preconditions it fails with `DimensionMismatchError` when the initial
estimate's length is not the bound parameter count; the goal history starts
with the initial estimate's goal value and records each accepted trial's. -/
def lm (goal : List ℚ → ℚ) (stepFn : List ℚ → ℚ → List ℚ) (nparams : ℕ)
    (initial : List ℚ) (lm_start lm_step : ℚ) (max_steps max_it : ℕ) :
    Except SolveErr (List ℚ × List ℚ) :=
  if initial.length ≠ nparams then .error .dimensionMismatch
  else .ok (lmIterate goal stepFn lm_step max_steps max_it initial (goal initial)
    lm_start [goal initial])

/-- Function `solve(data, mesh, initial, ...)`.  First the key-validation loop
`for key in data.keys(): assert key in ['gz', ..., 'gzz']` runs (raising the
`InvalidComponentError` of the spec on the first unrecognized key, before any
state is touched); then `_mesh`, `_data` and `_data_vector` are bound; the
default initial estimate is the uniform `1e-7` vector of length `mesh.size`;
finally `solvers.lm` runs.  The composite goal function and the trial-step
oracle that `solve` installs into `solvers` are abstracted as the `goal` and
`stepFn` parameters (the regularization weights are consumed only by them),
since `fatiando.inversion.solvers` is not part of the provided sources. -/
def solve (_kernel : Kernel) (goal : List ℚ → ℚ) (stepFn : List ℚ → ℚ → List ℚ)
    (s : Session) (data : Data) (mesh : Mesh) (initial : Option (List ℚ))
    (lm_start lm_step : ℚ) (max_steps max_it : ℕ) :
    Except SolveErr (List ℚ × List ℚ) × Session :=
  match data.find? (fun p => !(canonicalFields.contains p.1)) with
  | some p => (.error (.invalidComponent p.1), s)
  | none =>
    let s1 : Session := { s with mesh := some mesh, data := some data }
    match extract_data_vector data with
    | none => (.error (.missingValueKey ""), s1)
    | some dv =>
      let s2 : Session := { s1 with dataVector := some dv }
      let init := initial.getD (List.replicate mesh.size ((1 : ℚ) / 10 ^ 7))
      (lm goal stepFn mesh.size init lm_start lm_step max_steps max_it, s2)

/-- Well-formedness of one present grid for extraction: the observed `value`
array exists and has the observation count (the length of `x`). -/
def wellFormedGrid (g : Grid) : Bool :=
  match g.value with
  | none => false
  | some vs => vs.length == g.x.length

/-- Well-formedness of an observation set for extraction: every present
canonical component has an observed-value array of the observation count. -/
def wellFormedData (d : Data) : Bool :=
  canonicalFields.all (fun f =>
    match getField d f with
    | none => true
    | some g => wellFormedGrid g)

/-- Full alignment of one present grid: `value` exists and `x`, `y`, `z`,
`value` all have the same length. -/
def alignedGrid (g : Grid) : Bool :=
  match g.value with
  | none => false
  | some vs =>
    vs.length == g.x.length && (g.y.length == g.x.length && g.z.length == g.x.length)

/-- Full alignment of an observation set: every present canonical component's
grid is aligned. -/
def alignedData (d : Data) : Bool :=
  canonicalFields.all (fun f =>
    match getField d f with
    | none => true
    | some g => alignedGrid g)

/-- Observed-value array a component contributes to the data vector (empty
when the component is absent). -/
def componentValues (data : Data) (f : String) : List ℚ :=
  match getField data f with
  | none => []
  | some g => g.value.getD []

/-- Length of the data-vector prefix contributed by the present fields
strictly before `f` in `fs`: the slicing offset at which the grid-splitting
loop of `calc_adjustment(..., grid=True)` reads the slice for `f`. -/
def beforeLen (d : Data) : List String → String → ℕ
  | [], _ => 0
  | f' :: rest, f =>
    if f' = f then 0
    else (match getField d f' with | none => 0 | some g => g.x.length) +
      beforeLen d rest f

/-- Shape of one first-derivative row: `N` entries, a `+1` at index `a`, a
`-1` at index `b`, and zero at every other index. -/
def rowSpec (row : List ℚ) (N a b : ℕ) : Prop :=
  row.length = N ∧ row.getD a 0 = 1 ∧ row.getD b 0 = -1 ∧
    ∀ c, c < N → c ≠ a → c ≠ b → row.getD c 0 = 0

/-- Concrete prism bounds for the test fixtures. -/
def bounds0 : Bounds := ⟨0, 1, 0, 1, 0, 1⟩

/-- Concrete mesh cell for the test fixtures. -/
def cell0 : Cell := ⟨bounds0, 0⟩

/-- Concrete 1×1×1 mesh for the test fixtures. -/
def mesh1 : Mesh := ⟨1, 1, 1, [cell0]⟩

/-- Concrete single-observation grid with observed value `5`. -/
def grid1 : Grid := ⟨[0], [0], [0], some [5]⟩

/-- Concrete observation set with one `gz` observation. -/
def data1 : Data := [("gz", grid1)]

/-- Concrete observation set with an unrecognized component key. -/
def dataBad : Data := [("foo", grid1)]

/-- Concrete forward kernel returning `0` everywhere. -/
def kernel0 : Kernel := fun _ _ _ _ _ _ => 0

/-- Concrete constant goal function. -/
def goal0 : List ℚ → ℚ := fun _ => 0

/-- Concrete identity trial-step oracle. -/
def step0 : List ℚ → ℚ → List ℚ := fun c _ => c

/-- Session with `mesh1` and `data1` bound and no cached Jacobian. -/
def sessionBound : Session := ⟨none, some mesh1, some data1, none⟩

/-- C1: the Jacobian is built at most once per bound session and is independent
of the estimate: with a mesh and data bound, the builder returns the same
matrix for any two estimate vectors (its entries use only the forward kernel
with unit density and the cell geometry), and a second call on the resulting
session returns the memoized matrix with zero forward-kernel calls. -/
theorem jacobian_independent_and_memoized (kernel : Kernel) (s : Session)
    (mesh : Mesh) (data : Data) (e1 e2 : List ℚ)
    (hm : s.mesh = some mesh) (hd : s.data = some data) :
    build_pgrav3d_jacobian kernel s e1 = build_pgrav3d_jacobian kernel s e2 ∧
    ∃ j s' n, build_pgrav3d_jacobian kernel s e1 = .ok (j, s', n) ∧
      build_pgrav3d_jacobian kernel s' e2 = .ok (j, s', 0) := by
  refine ⟨rfl, ?_⟩
  cases hj : s.jacobian with
  | some j =>
    exact ⟨j, s, 0, by simp [build_pgrav3d_jacobian, hm, hd, hj],
      by simp [build_pgrav3d_jacobian, hm, hd, hj]⟩
  | none =>
    refine ⟨jacobianRows kernel data mesh,
      ⟨some (jacobianRows kernel data mesh), s.mesh, s.data, s.dataVector⟩,
      kernelCallCount data mesh, ?_, ?_⟩
    · simp [build_pgrav3d_jacobian, hm, hd, hj]
    · simp [build_pgrav3d_jacobian, hm, hd]

/-- Witness for C1 at a concrete bound session and two distinct estimates. -/
theorem jacobian_independent_and_memoized_witness :
    build_pgrav3d_jacobian kernel0 sessionBound [1] =
      build_pgrav3d_jacobian kernel0 sessionBound [2] ∧
    ∃ j s' n, build_pgrav3d_jacobian kernel0 sessionBound [1] = .ok (j, s', n) ∧
      build_pgrav3d_jacobian kernel0 s' [2] = .ok (j, s', 0) :=
  jacobian_independent_and_memoized kernel0 sessionBound mesh1 data1 [1] [2] rfl rfl

/-- C10: `fill_mesh` never fails on a length mismatch: it writes `estimate[p]`
into the value slot of cell `p` for exactly the first
`min (estimate.length) (cell count)` cells in flattened order, keeps every
remaining cell unchanged, and silently ignores extra estimate entries. -/
theorem fill_mesh_spec (estimate : List ℚ) (mesh : Mesh) :
    (fill_mesh estimate mesh).ravel.length = mesh.ravel.length ∧
    (∀ p : ℕ, p < estimate.length → p < mesh.ravel.length →
      (fill_mesh estimate mesh).ravel[p]? =
        (mesh.ravel[p]?).map fun c => { c with value := estimate.getD p 0 }) ∧
    (∀ p : ℕ, estimate.length ≤ p →
      (fill_mesh estimate mesh).ravel[p]? = mesh.ravel[p]?) := by
  refine ⟨?_, ?_, ?_⟩
  · simp [fill_mesh, Mesh.ravel]
    omega
  · intro p hpe hpc
    simp only [fill_mesh]
    simp only [Mesh.ravel] at hpc ⊢
    have hzip : p < (estimate.zip mesh.cells).length := by
      simp [List.length_zip]; omega
    rw [List.getElem?_append, if_pos (by simpa using hzip)]
    rw [List.getElem?_map]
    have hz : (estimate.zip (mesh.cells))[p]? = some (estimate[p], mesh.cells[p]) :=
      List.getElem?_zip_eq_some.mpr
        ⟨List.getElem?_eq_getElem hpe, List.getElem?_eq_getElem hpc⟩
    rw [hz, List.getElem?_eq_getElem hpc]
    simp [List.getD_eq_getElem _ _ hpe, List.getElem?_eq_getElem hpe]
  · intro p hpe
    simp only [fill_mesh]
    simp only [Mesh.ravel]
    rw [List.getElem?_append,
      if_neg (by simp [List.length_zip]; omega)]
    simp only [List.length_map, List.length_zip]
    rw [List.getElem?_drop]
    by_cases hc : mesh.cells.length ≤ p
    · rw [List.getElem?_eq_none_iff.mpr (by omega),
        List.getElem?_eq_none_iff.mpr hc]
    · congr 1
      omega

/-- Witness for C10: cell `0` of a one-cell mesh receives the first entry of a
three-entry estimate; the rest of the estimate is ignored. -/
theorem fill_mesh_spec_witness :
    (fill_mesh [1, 2, 3] mesh1).ravel[0]? =
      (mesh1.ravel[0]?).map fun c => { c with value := ([1, 2, 3] : List ℚ).getD 0 0 } :=
  (fill_mesh_spec [1, 2, 3] mesh1).2.1 0 (by decide) (by decide)

/-- C5: when the observation mapping contains a key outside the seven
recognized component names, `solve` fails with `InvalidComponentError` before
any data vector or matrix is assembled and the session state is returned
unmodified. -/
theorem solve_invalid_component (kernel : Kernel) (goal : List ℚ → ℚ)
    (stepFn : List ℚ → ℚ → List ℚ) (s : Session) (data : Data) (mesh : Mesh)
    (initial : Option (List ℚ)) (lm_start lm_step : ℚ) (max_steps max_it : ℕ)
    (hbad : ∃ p ∈ data, p.1 ∉ canonicalFields) :
    ∃ k, k ∉ canonicalFields ∧
      solve kernel goal stepFn s data mesh initial lm_start lm_step max_steps max_it =
        (.error (.invalidComponent k), s) := by
  have h1 : (data.find? (fun p => !(canonicalFields.contains p.1))).isSome := by
    apply List.find?_isSome.mpr
    obtain ⟨p, hp, hmem⟩ := hbad
    exact ⟨p, hp, by simpa using hmem⟩
  obtain ⟨q, hq⟩ := Option.isSome_iff_exists.mp h1
  have hpred := List.find?_some hq
  refine ⟨q.1, by simpa using hpred, ?_⟩
  have hq' : List.find? (fun p => !decide (p.1 ∈ canonicalFields)) data = some q := by
    simpa using hq
  simp [solve, hq']

/-- Witness for C5: a `"foo"` key makes `solve` fail with
`InvalidComponentError` and leaves the cleared session untouched. -/
theorem solve_invalid_component_witness :
    ∃ k, k ∉ canonicalFields ∧
      solve kernel0 goal0 step0 clear dataBad mesh1 none 1 10 1 1 =
        (.error (.invalidComponent k), clear) :=
  solve_invalid_component kernel0 goal0 step0 clear dataBad mesh1 none 1 10 1 1
    ⟨("foo", grid1), by decide, by decide⟩

/-- C8: an explicit initial estimate whose length disagrees with the mesh cell
count makes `solve` fail with `DimensionMismatchError` (the length
precondition of the spec-modelled `solvers.lm`). -/
theorem solve_dimension_mismatch (kernel : Kernel) (goal : List ℚ → ℚ)
    (stepFn : List ℚ → ℚ → List ℚ) (s : Session) (data : Data) (mesh : Mesh)
    (e : List ℚ) (lm_start lm_step : ℚ) (max_steps max_it : ℕ) (dv : List ℚ)
    (hkeys : ∀ p ∈ data, p.1 ∈ canonicalFields)
    (hex : extract_data_vector data = some dv)
    (hlen : e.length ≠ mesh.size) :
    (solve kernel goal stepFn s data mesh (some e) lm_start lm_step max_steps
      max_it).1 = .error .dimensionMismatch := by
  have hfind : List.find? (fun p => !decide (p.1 ∈ canonicalFields)) data = none :=
    List.find?_eq_none.mpr (fun p hp => by simpa using hkeys p hp)
  simp [solve, hfind, hex, lm, hlen]

/-- Witness for C8: a two-entry initial estimate on a one-cell mesh. -/
theorem solve_dimension_mismatch_witness :
    (solve kernel0 goal0 step0 clear data1 mesh1 (some [1, 2]) 1 10 1 1).1 =
      .error .dimensionMismatch :=
  solve_dimension_mismatch kernel0 goal0 step0 clear data1 mesh1 [1, 2] 1 10 1 1
    [5] (by decide) rfl (by decide)

/-- C6: `residuals(data, estimate)` returns the observed data vector minus the
Jacobian-predicted vector: it re-extracts the observed values when the
observation set still carries them, falls back to the session's cached data
vector otherwise, and fails with the missing-observed-values error when the
values are absent and no vector is cached. -/
theorem residuals_spec (kernel : Kernel) (s : Session) (data : Data)
    (estimate : List ℚ) (j : List (List ℚ)) (s' : Session) (n : ℕ)
    (key : String) (g : Grid)
    (hb : build_pgrav3d_jacobian kernel s estimate = .ok (j, s', n))
    (hhead : data.head? = some (key, g)) :
    (∀ dv, g.value.isSome → extract_data_vector data = some dv →
      residuals kernel s data estimate = .ok (vecSub dv (matVec j estimate), s')) ∧
    (g.value = none → ∀ dv, s'.dataVector = some dv →
      residuals kernel s data estimate = .ok (vecSub dv (matVec j estimate), s')) ∧
    (g.value = none → s'.dataVector = none →
      residuals kernel s data estimate = .error .missingObservedValues) := by
  refine ⟨?_, ?_, ?_⟩
  · intro dv hval hex
    simp [residuals, calc_adjustment, hb, hhead, hval, hex]
  · intro hval dv hdv
    simp [residuals, calc_adjustment, hb, hhead, hval, hdv]
  · intro hval hdv
    simp [residuals, calc_adjustment, hb, hhead, hval, hdv]

/-- Witness for C6 (re-extraction branch) at a concrete bound session. -/
theorem residuals_spec_witness :
    residuals kernel0 sessionBound data1 [1] =
      .ok (vecSub [5] (matVec [[0]] [1]),
        ⟨some [[0]], some mesh1, some data1, none⟩) :=
  (residuals_spec kernel0 sessionBound data1 [1] [[0]]
      ⟨some [[0]], some mesh1, some data1, none⟩ 1 "gz" grid1 rfl rfl).1
    [5] rfl rfl

/-- Flattened index bound: the parameter index of cell `(i, j, k)` is below the
total cell count. -/
lemma flat_index_lt {nx ny nz i j k : ℕ} (hi : i < nx) (hj : j < ny) (hk : k < nz) :
    i + j * nx + k * (nx * ny) < nx * ny * nz := by
  have h0 : i + 1 ≤ nx := hi
  have e1 : nx + j * nx = nx * (j + 1) := by ring
  have h2 : nx * (j + 1) ≤ nx * ny := mul_le_mul_left' (Nat.succ_le_of_lt hj) nx
  have e2 : nx * ny + k * (nx * ny) = nx * ny * (k + 1) := by ring
  have h3 : nx * ny * (k + 1) ≤ nx * ny * nz :=
    mul_le_mul_left' (Nat.succ_le_of_lt hk) (nx * ny)
  linarith

lemma derivRow_length (N a b : ℕ) : (derivRow N a b).length = N := by
  simp [derivRow]

lemma derivRow_getD {N c : ℕ} (a b : ℕ) (hc : c < N) :
    (derivRow N a b).getD c 0 = if c = b then -1 else if c = a then 1 else 0 := by
  simp [derivRow, List.getD_eq_getElem?_getD, List.getElem?_range, hc]

/-- A `derivRow` with two distinct in-range indices satisfies `rowSpec`. -/
lemma derivRow_rowSpec {N a b : ℕ} (ha : a < N) (hb : b < N) (hab : a ≠ b) :
    rowSpec (derivRow N a b) N a b := by
  refine ⟨derivRow_length N a b, ?_, ?_, ?_⟩
  · rw [derivRow_getD a b ha, if_neg hab, if_pos rfl]
  · rw [derivRow_getD a b hb, if_pos rfl]
  · intro c hc hca hcb
    rw [derivRow_getD a b hc, if_neg hcb, if_neg hca]

/-- Length of a `flatMap` over `List.range` with constant block length. -/
lemma length_flatMap_range {β : Type} (n c : ℕ) (f : ℕ → List β)
    (h : ∀ k, (f k).length = c) : ((List.range n).flatMap f).length = n * c := by
  induction n with
  | zero => simp
  | succ n ih => simp [List.range_succ, ih, h n, Nat.succ_mul]

lemma xDerivRows_length (nx ny nz : ℕ) :
    (xDerivRows nx ny nz).length = (nx - 1) * ny * nz := by
  rw [xDerivRows, length_flatMap_range nz (ny * (nx - 1))]
  · ring
  · intro k
    rw [length_flatMap_range ny (nx - 1)]
    intro j
    simp

lemma yDerivRows_length (nx ny nz : ℕ) :
    (yDerivRows nx ny nz).length = nx * (ny - 1) * nz := by
  rw [yDerivRows, length_flatMap_range nz ((ny - 1) * nx)]
  · ring
  · intro k
    rw [length_flatMap_range (ny - 1) nx]
    intro j
    simp

lemma zDerivRows_length (nx ny nz : ℕ) :
    (zDerivRows nx ny nz).length = nx * ny * (nz - 1) := by
  rw [zDerivRows, length_flatMap_range (nz - 1) (ny * nx)]
  · ring
  · intro k
    rw [length_flatMap_range ny nx]
    intro j
    simp

lemma xDerivRows_mem (nx ny nz : ℕ) (row : List ℚ) (h : row ∈ xDerivRows nx ny nz) :
    ∃ i j k, i + 1 < nx ∧ j < ny ∧ k < nz ∧
      rowSpec row (nx * ny * nz) (i + j * nx + k * (nx * ny))
        (i + j * nx + k * (nx * ny) + 1) := by
  simp only [xDerivRows, List.mem_flatMap, List.mem_map, List.mem_range] at h
  obtain ⟨k, hk, j, hj, i, hi, hrow⟩ := h
  have hi1 : i + 1 < nx := by omega
  refine ⟨i, j, k, hi1, hj, hk, ?_⟩
  subst hrow
  have hb : i + j * nx + k * (nx * ny) + 1 < nx * ny * nz := by
    have h2 := flat_index_lt hi1 hj hk
    have e1 : i + 1 + j * nx + k * (nx * ny) = i + j * nx + k * (nx * ny) + 1 := by
      ring
    linarith
  exact derivRow_rowSpec (flat_index_lt (by omega) hj hk) hb (by omega)

lemma yDerivRows_mem (nx ny nz : ℕ) (row : List ℚ) (h : row ∈ yDerivRows nx ny nz) :
    ∃ i j k, i < nx ∧ j + 1 < ny ∧ k < nz ∧
      rowSpec row (nx * ny * nz) (i + j * nx + k * (nx * ny))
        (i + j * nx + k * (nx * ny) + nx) := by
  simp only [yDerivRows, List.mem_flatMap, List.mem_map, List.mem_range] at h
  obtain ⟨k, hk, j, hj, i, hi, hrow⟩ := h
  have hj1 : j + 1 < ny := by omega
  refine ⟨i, j, k, hi, hj1, hk, ?_⟩
  subst hrow
  have hb : i + j * nx + k * (nx * ny) + nx < nx * ny * nz := by
    have h2 := flat_index_lt hi hj1 hk
    have e1 : i + (j + 1) * nx + k * (nx * ny) =
        i + j * nx + k * (nx * ny) + nx := by ring
    linarith
  exact derivRow_rowSpec (flat_index_lt hi (by omega) hk) hb (by omega)

lemma zDerivRows_mem (nx ny nz : ℕ) (row : List ℚ) (h : row ∈ zDerivRows nx ny nz) :
    ∃ i j k, i < nx ∧ j < ny ∧ k + 1 < nz ∧
      rowSpec row (nx * ny * nz) (i + j * nx + k * (nx * ny))
        (i + j * nx + k * (nx * ny) + nx * ny) := by
  simp only [zDerivRows, List.mem_flatMap, List.mem_map, List.mem_range] at h
  obtain ⟨k, hk, j, hj, i, hi, hrow⟩ := h
  have hk1 : k + 1 < nz := by omega
  refine ⟨i, j, k, hi, hj, hk1, ?_⟩
  subst hrow
  have hb : i + j * nx + k * (nx * ny) + nx * ny < nx * ny * nz := by
    have h2 := flat_index_lt hi hj hk1
    have e1 : i + j * nx + (k + 1) * (nx * ny) =
        i + j * nx + k * (nx * ny) + nx * ny := by ring
    linarith
  have hpos : 0 < nx * ny := Nat.mul_pos (by omega) (by omega)
  refine derivRow_rowSpec (flat_index_lt hi hj (by omega)) hb ?_
  intro he
  linarith

/-- C3: for positive mesh dimensions, the first-derivative finite-difference
operator has `(nx-1)*ny*nz + nx*(ny-1)*nz + nx*ny*(nz-1)` rows ordered
x-pairs then y-pairs then z-pairs, and every row is a zero row of length
`nx*ny*nz` except for a single `+1` at the flattened index of a cell and a
single `-1` at the flattened index of its neighbor (offset `1` along x, `nx`
along y, `nx*ny` along z). -/
theorem first_deriv_spec (nx ny nz : ℕ) (hx : 0 < nx) (hy : 0 < ny) (hz : 0 < nz) :
    (build_pgrav3d_first_deriv nx ny nz).length =
      (nx - 1) * ny * nz + nx * (ny - 1) * nz + nx * ny * (nz - 1) ∧
    build_pgrav3d_first_deriv nx ny nz =
      xDerivRows nx ny nz ++ yDerivRows nx ny nz ++ zDerivRows nx ny nz ∧
    (xDerivRows nx ny nz).length = (nx - 1) * ny * nz ∧
    (yDerivRows nx ny nz).length = nx * (ny - 1) * nz ∧
    (zDerivRows nx ny nz).length = nx * ny * (nz - 1) ∧
    (∀ row ∈ xDerivRows nx ny nz, ∃ i j k, i + 1 < nx ∧ j < ny ∧ k < nz ∧
      rowSpec row (nx * ny * nz) (i + j * nx + k * (nx * ny))
        (i + j * nx + k * (nx * ny) + 1)) ∧
    (∀ row ∈ yDerivRows nx ny nz, ∃ i j k, i < nx ∧ j + 1 < ny ∧ k < nz ∧
      rowSpec row (nx * ny * nz) (i + j * nx + k * (nx * ny))
        (i + j * nx + k * (nx * ny) + nx)) ∧
    (∀ row ∈ zDerivRows nx ny nz, ∃ i j k, i < nx ∧ j < ny ∧ k + 1 < nz ∧
      rowSpec row (nx * ny * nz) (i + j * nx + k * (nx * ny))
        (i + j * nx + k * (nx * ny) + nx * ny)) := by
  refine ⟨?_, rfl, xDerivRows_length nx ny nz, yDerivRows_length nx ny nz,
    zDerivRows_length nx ny nz, xDerivRows_mem nx ny nz, yDerivRows_mem nx ny nz,
    zDerivRows_mem nx ny nz⟩
  rw [build_pgrav3d_first_deriv, List.length_append, List.length_append,
    xDerivRows_length, yDerivRows_length, zDerivRows_length]

/-- Witness for C3: the row count of the operator for a 2×2×2 mesh. -/
theorem first_deriv_spec_witness :
    (build_pgrav3d_first_deriv 2 2 2).length =
      (2 - 1) * 2 * 2 + 2 * (2 - 1) * 2 + 2 * 2 * (2 - 1) :=
  (first_deriv_spec 2 2 2 (by decide) (by decide) (by decide)).1

lemma getField_updateField_self (d : Data) (f : String) (g g' : Grid)
    (h : getField d f = some g) : getField (updateField d f g') f = some g' := by
  induction d with
  | nil => simp [getField] at h
  | cons p rest ih =>
    by_cases hp : p.1 = f
    · simp [getField, updateField, hp]
    · simp only [getField, if_neg hp] at h
      simp only [updateField, List.map_cons, if_neg hp]
      simp only [getField, if_neg hp]
      exact ih h

lemma getField_updateField_ne (d : Data) (f f' : String) (g' : Grid)
    (hne : f' ≠ f) : getField (updateField d f g') f' = getField d f' := by
  induction d with
  | nil => rfl
  | cons p rest ih =>
    have hne' : f ≠ f' := fun hh => hne hh.symm
    by_cases hp : p.1 = f
    · simp only [updateField, List.map_cons, if_pos hp]
      simp only [getField, if_neg hne', if_neg (hp ▸ hne' : ¬p.1 = f')]
      exact ih
    · by_cases hpf : p.1 = f'
      · simp only [updateField, List.map_cons, if_neg hp]
        simp only [getField, if_pos hpf]
      · simp only [updateField, List.map_cons, if_neg hp]
        simp only [getField, if_neg hpf]
        exact ih

lemma updateField_of_not_mem (d : Data) (f : String) (g : Grid)
    (h : f ∉ d.map Prod.fst) : updateField d f g = d := by
  induction d with
  | nil => rfl
  | cons p rest ih =>
    simp only [List.map_cons, List.mem_cons] at h
    push_neg at h
    obtain ⟨h1, h2⟩ := h
    have ht : updateField rest f g = rest := ih h2
    simp only [updateField, List.map_cons, if_neg (Ne.symm h1)]
    simp only [updateField] at ht
    rw [ht]

lemma updateField_eq_self (d : Data) (f : String) (g : Grid)
    (hk : (d.map Prod.fst).Nodup) (h : getField d f = some g) :
    updateField d f g = d := by
  induction d with
  | nil => rfl
  | cons p rest ih =>
    obtain ⟨pf, pg⟩ := p
    have hk' := List.nodup_cons.mp
      (show (pf :: rest.map Prod.fst).Nodup by simpa only [List.map_cons] using hk)
    by_cases hp : pf = f
    · subst hp
      simp only [getField, if_pos rfl] at h
      have hg : g = pg := by simpa using h.symm
      subst hg
      have ht : updateField rest pf g = rest :=
        updateField_of_not_mem rest pf g hk'.1
      simp only [updateField, List.map_cons, if_pos rfl]
      simp only [updateField] at ht
      rw [ht]
      simp
    · simp only [getField, if_neg hp] at h
      have ht : updateField rest f g = rest := ih hk'.2 h
      simp only [updateField, List.map_cons, if_neg hp]
      simp only [updateField] at ht
      rw [ht]

lemma fieldsVector_isSome (d : Data) (fs : List String)
    (h : ∀ f ∈ fs, ∀ g, getField d f = some g → g.value.isSome) :
    ∃ v, fieldsVector d fs = some v := by
  induction fs with
  | nil => exact ⟨[], rfl⟩
  | cons f rest ih =>
    obtain ⟨v, hv⟩ := ih (fun f' hf' => h f' (List.mem_cons_of_mem f hf'))
    cases hgf : getField d f with
    | none => exact ⟨v, by simp [fieldsVector, hgf, hv]⟩
    | some g =>
      obtain ⟨vs, hvs⟩ :=
        Option.isSome_iff_exists.mp (h f (List.mem_cons_self f rest) g hgf)
      exact ⟨vs ++ v, by simp [fieldsVector, hgf, hvs, hv]⟩

/-- Splitting the concatenation produced by the extractor with the same field
list, slice by slice, restores the dictionary and leaves the tail vector. -/
lemma splitFields_of_fieldsVector (d : Data) (hk : (d.map Prod.fst).Nodup) :
    ∀ (fs : List String) (v rest : List ℚ),
      (∀ f ∈ fs, ∀ g, getField d f = some g →
        ∃ vs, g.value = some vs ∧ vs.length = g.x.length) →
      fieldsVector d fs = some v →
      splitFields d fs (v ++ rest) = (d, rest) := by
  intro fs
  induction fs with
  | nil =>
    intro v rest _ hv
    simp only [fieldsVector, Option.some.injEq] at hv
    subst hv
    simp [splitFields]
  | cons f fs ih =>
    intro v rest hwf hv
    cases hgf : getField d f with
    | none =>
      simp only [fieldsVector, hgf] at hv
      simp only [splitFields, hgf]
      exact ih v rest (fun f' hf' => hwf f' (by simp [hf'])) hv
    | some g =>
      obtain ⟨vs, hval, hlen⟩ := hwf f (by simp) g hgf
      cases hr : fieldsVector d fs with
      | none =>
        simp only [fieldsVector, hgf, hval, hr] at hv
        exact absurd hv (by simp)
      | some r =>
        simp only [fieldsVector, hgf, hval, hr, Option.some.injEq] at hv
        subst hv
        simp only [splitFields, hgf]
        have htake : (vs ++ r ++ rest).take g.x.length = vs := by
          rw [← hlen, List.append_assoc, List.take_left]
        have hdrop : (vs ++ r ++ rest).drop g.x.length = r ++ rest := by
          rw [← hlen, List.append_assoc, List.drop_left]
        rw [htake, hdrop]
        have hgrec : ({ g with value := some vs } : Grid) = g := by
          obtain ⟨gx, gy, gz, gval⟩ := g
          simp only at hval
          rw [hval]
        rw [hgrec, updateField_eq_self d f g hk hgf]
        exact ih r rest (fun f' hf' => hwf f' (by simp [hf'])) hr

/-- C2: for every well-formed observation set (unique keys, each present
canonical component carrying an observed-value array of the observation
count), flattening with `extract_data_vector` and splitting the vector back
with the grid path of `calc_adjustment` reproduces the original per-component
arrays — indeed the original observation set — with nothing left over. -/
theorem extract_split_roundtrip (data : Data)
    (hk : (data.map Prod.fst).Nodup) (hwf : wellFormedData data = true) :
    ∃ v, extract_data_vector data = some v ∧
      splitFields data canonicalFields v = (data, []) := by
  have hwf' : ∀ f ∈ canonicalFields, ∀ g, getField data f = some g →
      ∃ vs, g.value = some vs ∧ vs.length = g.x.length := by
    intro f hf g hg
    have hall := List.all_eq_true.mp hwf f hf
    rw [hg] at hall
    simp only [wellFormedGrid] at hall
    cases hval : g.value with
    | none => rw [hval] at hall; simp at hall
    | some vs =>
      rw [hval] at hall
      simp at hall
      exact ⟨vs, rfl, hall⟩
  obtain ⟨v, hv⟩ := fieldsVector_isSome data canonicalFields
    (fun f hf g hg => by obtain ⟨vs, h1, _⟩ := hwf' f hf g hg; simp [h1])
  refine ⟨v, hv, ?_⟩
  have h := splitFields_of_fieldsVector data hk canonicalFields v [] hwf' hv
  simpa using h

/-- Witness for C2 at a concrete single-component observation set. -/
theorem extract_split_roundtrip_witness :
    ∃ v, extract_data_vector data1 = some v ∧
      splitFields data1 canonicalFields v = (data1, []) :=
  extract_split_roundtrip data1 (by decide) (by decide)

/-- The extractor's output is the canonical-order concatenation of the present
components' observed-value arrays. -/
lemma fieldsVector_eq_flatMap (d : Data) (fs : List String)
    (h : ∀ f ∈ fs, ∀ g, getField d f = some g → g.value.isSome) :
    fieldsVector d fs = some (fs.flatMap (componentValues d)) := by
  induction fs with
  | nil => rfl
  | cons f rest ih =>
    have ihh := ih (fun f' hf' => h f' (List.mem_cons_of_mem f hf'))
    cases hgf : getField d f with
    | none => simp [fieldsVector, hgf, ihh, componentValues]
    | some g =>
      obtain ⟨vs, hvs⟩ :=
        Option.isSome_iff_exists.mp (h f (List.mem_cons_self f rest) g hgf)
      simp [fieldsVector, hgf, hvs, ihh, componentValues]

/-- C4: for every fully aligned observation set, the flattened data vector is
the concatenation of the present components' observed-value arrays in the
canonical order `gz, gxx, gxy, gxz, gyy, gyz, gzz`, the Jacobian's row blocks
follow the same canonical order with one row per observation in array order,
each component contributes equally many data entries and Jacobian rows, and
the data vector and the Jacobian have the same total length — so data entry
`i` corresponds to Jacobian row `i`. -/
theorem data_vector_matches_jacobian (kernel : Kernel) (mesh : Mesh) (data : Data)
    (hwf : alignedData data = true) :
    extract_data_vector data =
      some (canonicalFields.flatMap (componentValues data)) ∧
    jacobianRows kernel data mesh =
      canonicalFields.flatMap (componentBlock kernel mesh data) ∧
    (∀ f ∈ canonicalFields,
      (componentValues data f).length =
        (componentBlock kernel mesh data f).length) ∧
    (canonicalFields.flatMap (componentValues data)).length =
      (jacobianRows kernel data mesh).length := by
  have hwf' : ∀ f ∈ canonicalFields, ∀ g, getField data f = some g →
      ∃ vs, g.value = some vs ∧ vs.length = g.x.length ∧
        g.y.length = g.x.length ∧ g.z.length = g.x.length := by
    intro f hf g hg
    have hall := List.all_eq_true.mp hwf f hf
    rw [hg] at hall
    simp only [alignedGrid] at hall
    cases hval : g.value with
    | none => rw [hval] at hall; simp at hall
    | some vs =>
      rw [hval] at hall
      simp at hall
      exact ⟨vs, rfl, hall.1, hall.2.1, hall.2.2⟩
  have hlen : ∀ f ∈ canonicalFields,
      (componentValues data f).length =
        (componentBlock kernel mesh data f).length := by
    intro f hf
    cases hgf : getField data f with
    | none => simp [componentValues, componentBlock, hgf]
    | some g =>
      obtain ⟨vs, hvs, h1, h2, h3⟩ := hwf' f hf g hgf
      simp [componentValues, componentBlock, hgf, hvs, obsPoints,
        List.length_zip]
      omega
  refine ⟨?_, rfl, hlen, ?_⟩
  · exact fieldsVector_eq_flatMap data canonicalFields
      (fun f hf g hg => by obtain ⟨vs, h1, _⟩ := hwf' f hf g hg; simp [h1])
  · rw [jacobianRows, List.length_flatMap, List.length_flatMap]
    congr 1
    exact List.map_congr_left (fun f hf => hlen f hf)

/-- Witness for C4: the `gz` component contributes equally many data entries
and Jacobian rows on a concrete observation set. -/
theorem data_vector_matches_jacobian_witness :
    (componentValues data1 "gz").length =
      (componentBlock kernel0 mesh1 data1 "gz").length :=
  (data_vector_matches_jacobian kernel0 mesh1 data1 (by decide)).2.2.1 "gz"
    (by decide)

lemma getField_splitFields_not_mem (f : String) :
    ∀ (fs : List String) (d : Data) (v : List ℚ), f ∉ fs →
      getField (splitFields d fs v).1 f = getField d f := by
  intro fs
  induction fs with
  | nil => intro d v _; rfl
  | cons f' rest ih =>
    intro d v hf
    have hne : f ≠ f' := fun h => hf (h ▸ List.mem_cons_self f' rest)
    have hfr : f ∉ rest := fun h => hf (List.mem_cons_of_mem f' h)
    cases hgf : getField d f' with
    | none =>
      simp only [splitFields, hgf]
      exact ih d v hfr
    | some g =>
      simp only [splitFields, hgf]
      rw [ih _ _ hfr]
      exact getField_updateField_ne d f' f _ hne

lemma beforeLen_updateField (d : Data) (f' : String) (g' : Grid) :
    ∀ (fs : List String) (f : String), f' ∉ fs →
      beforeLen (updateField d f' g') fs f = beforeLen d fs f := by
  intro fs
  induction fs with
  | nil => intro f _; rfl
  | cons f0 rest ih =>
    intro f hf'
    have h0 : f' ≠ f0 := fun h => hf' (h ▸ List.mem_cons_self f0 rest)
    have hr : f' ∉ rest := fun h => hf' (List.mem_cons_of_mem f0 h)
    by_cases hf0 : f0 = f
    · simp [beforeLen, hf0]
    · simp only [beforeLen, if_neg hf0]
      rw [getField_updateField_ne d f' f0 g' (Ne.symm h0)]
      rw [ih f hr]

/-- After the grid-splitting loop, a present field's grid carries as `value`
the slice of the adjusted vector starting at the total length of the earlier
present fields' slices. -/
lemma getField_splitFields (fs : List String) (hfs : fs.Nodup) :
    ∀ (d : Data) (v : List ℚ) (f : String) (g : Grid), f ∈ fs →
      getField d f = some g →
      getField (splitFields d fs v).1 f =
        some { g with value := some ((v.drop (beforeLen d fs f)).take g.x.length) } := by
  induction fs with
  | nil => intro d v f g hf _; exact absurd hf (List.not_mem_nil f)
  | cons f' rest ih =>
    intro d v f g hf hg
    have hnodup := List.nodup_cons.mp hfs
    by_cases hff : f' = f
    · subst hff
      simp only [splitFields, hg]
      rw [getField_splitFields_not_mem f' rest _ _ hnodup.1]
      rw [getField_updateField_self d f' g _ hg]
      simp [beforeLen]
    · have hfr : f ∈ rest := by
        rcases List.mem_cons.mp hf with h | h
        · exact absurd h.symm hff
        · exact h
      cases hgf' : getField d f' with
      | none =>
        simp only [splitFields, hgf']
        rw [ih hnodup.2 d v f g hfr hg]
        simp [beforeLen, hff, hgf']
      | some g₁ =>
        simp only [splitFields, hgf']
        have hg₂ : getField (updateField d f'
            { g₁ with value := some (v.take g₁.x.length) }) f = some g := by
          rw [getField_updateField_ne d f' f _ (fun h => hff h.symm)]
          exact hg
        rw [ih hnodup.2 _ _ f g hfr hg₂]
        rw [beforeLen_updateField d f' _ rest f hnodup.1]
        rw [List.drop_drop]
        simp only [beforeLen, if_neg hff, hgf']

/-- A successful Jacobian build preserves the bound mesh, data and data
vector of the session. -/
lemma build_ok_state (kernel : Kernel) (s : Session) (e : List ℚ)
    (j : List (List ℚ)) (s' : Session) (n : ℕ)
    (hb : build_pgrav3d_jacobian kernel s e = .ok (j, s', n)) :
    s'.mesh = s.mesh ∧ s'.data = s.data ∧ s'.dataVector = s.dataVector := by
  unfold build_pgrav3d_jacobian at hb
  cases hm : s.mesh with
  | none => rw [hm] at hb; exact absurd hb (by simp)
  | some mesh =>
    rw [hm] at hb
    cases hd : s.data with
    | none => rw [hd] at hb; exact absurd hb (by simp)
    | some data =>
      rw [hd] at hb
      cases hj : s.jacobian with
      | some j0 =>
        rw [hj] at hb
        simp only [Except.ok.injEq, Prod.mk.injEq] at hb
        rw [← hb.2.1]
        exact ⟨hm, hd, rfl⟩
      | none =>
        rw [hj] at hb
        simp only [Except.ok.injEq, Prod.mk.injEq] at hb
        rw [← hb.2.1]
        exact ⟨rfl, rfl, rfl⟩

/-- C9: `calc_adjustment` with `grid=True` mutates the bound observation set:
the returned grid dictionary is stored back as the session's data (the shallow
copy shares the inner dictionaries), and every present component's observed
`value` array is overwritten with the corresponding slice of the predicted
vector, so observed values are not preserved across a grid-mode prediction. -/
theorem calc_adjustment_grid_overwrites (kernel : Kernel) (s : Session)
    (estimate : List ℚ) (j : List (List ℚ)) (s₁ : Session) (n : ℕ)
    (data : Data) (f : String) (g : Grid)
    (hb : build_pgrav3d_jacobian kernel s estimate = .ok (j, s₁, n))
    (hd : s.data = some data) (hf : f ∈ canonicalFields)
    (hg : getField data f = some g) :
    ∃ grid s₂, calc_adjustment_grid kernel s estimate = .ok (grid, s₂) ∧
      s₂.data = some grid ∧
      getField grid f =
        some { g with value := some (((matVec j estimate).drop (beforeLen data canonicalFields f)).take g.x.length) } := by
  have hstate := build_ok_state kernel s estimate j s₁ n hb
  have hd₁ : s₁.data = some data := by rw [hstate.2.1, hd]
  refine ⟨(splitFields data canonicalFields (matVec j estimate)).1,
    ⟨s₁.jacobian, s₁.mesh,
      some (splitFields data canonicalFields (matVec j estimate)).1,
      s₁.dataVector⟩,
    ?_, rfl, ?_⟩
  · simp [calc_adjustment_grid, hb, hd₁]
  · exact getField_splitFields canonicalFields (by decide) data
      (matVec j estimate) f g hf hg

/-- Witness for C9: on a concrete session the observed `gz` value array `[5]`
is replaced by a slice of the predicted vector. -/
theorem calc_adjustment_grid_overwrites_witness :
    ∃ grid s₂, calc_adjustment_grid kernel0 sessionBound [1] = .ok (grid, s₂) ∧
      s₂.data = some grid ∧
      getField grid "gz" =
        some { grid1 with value := some (((matVec [[0]] [1]).drop (beforeLen data1 canonicalFields "gz")).take grid1.x.length) } :=
  calc_adjustment_grid_overwrites kernel0 sessionBound [1] [[0]]
    ⟨some [[0]], some mesh1, some data1, none⟩ 1 data1 "gz" grid1 rfl rfl
    (by decide) rfl

/-- A successful step search only ever returns a trial whose goal value is
strictly below the current one. -/
lemma tryStep_lt (goal : List ℚ → ℚ) (stepFn : List ℚ → ℚ → List ℚ)
    (current : List ℚ) (curGoal lm_step : ℚ) :
    ∀ (n : ℕ) (marq : ℚ) (trial : List ℚ) (tg marq' : ℚ),
      tryStep goal stepFn current curGoal lm_step marq n = some (trial, tg, marq') →
      tg < curGoal := by
  intro n
  induction n with
  | zero => intro marq trial tg marq' h; simp [tryStep] at h
  | succ n ih =>
    intro marq trial tg marq' h
    simp only [tryStep] at h
    by_cases hlt : goal (stepFn current marq) < curGoal
    · rw [if_pos hlt] at h
      simp only [Option.some.injEq, Prod.mk.injEq] at h
      rw [← h.2.1]
      exact hlt
    · rw [if_neg hlt] at h
      exact ih _ _ _ _ h

/-- The accepted-goal history stays non-increasing through the outer loop. -/
lemma lmIterate_chain (goal : List ℚ → ℚ) (stepFn : List ℚ → ℚ → List ℚ)
    (lm_step : ℚ) (max_steps : ℕ) :
    ∀ (it : ℕ) (current : List ℚ) (curGoal marq : ℚ) (goals : List ℚ),
      List.Chain' (fun a b => b ≤ a) goals → goals.getLast? = some curGoal →
      List.Chain' (fun a b => b ≤ a)
        (lmIterate goal stepFn lm_step max_steps it current curGoal marq goals).2 := by
  intro it
  induction it with
  | zero => intro current curGoal marq goals hc _; simpa [lmIterate] using hc
  | succ it ih =>
    intro current curGoal marq goals hc hlast
    rw [lmIterate]
    cases hts : tryStep goal stepFn current curGoal lm_step marq max_steps with
    | none => simpa using hc
    | some t =>
      obtain ⟨trial, tg, marq'⟩ := t
      have htg : tg < curGoal :=
        tryStep_lt goal stepFn current curGoal lm_step max_steps marq trial tg
          marq' hts
      have hc' : List.Chain' (fun a b => b ≤ a) (goals ++ [tg]) := by
        apply List.Chain'.append hc (List.chain'_singleton tg)
        intro x hx y hy
        simp only [List.head?_cons, Option.mem_def, Option.some.injEq] at hy
        subst hy
        rw [hlast] at hx
        simp only [Option.mem_def, Option.some.injEq] at hx
        subst hx
        exact le_of_lt htg
      by_cases hconv : curGoal - tg < lmTolerance * curGoal
      · simp only [if_pos hconv]
        exact hc'
      · simp only [if_neg hconv]
        exact ih trial tg marq' (goals ++ [tg]) hc' (by rw [List.getLast?_concat])

/-- C7: whenever `solve` returns an estimate and a goal history, the history
is non-increasing across accepted iterations — a trial step is accepted only
when its goal value is strictly lower than the current one. -/
theorem solve_goals_monotone (kernel : Kernel) (goal : List ℚ → ℚ)
    (stepFn : List ℚ → ℚ → List ℚ) (s : Session) (data : Data) (mesh : Mesh)
    (initial : Option (List ℚ)) (lm_start lm_step : ℚ) (max_steps max_it : ℕ)
    (est goals : List ℚ) (s' : Session)
    (h : solve kernel goal stepFn s data mesh initial lm_start lm_step max_steps
      max_it = (.ok (est, goals), s')) :
    List.Chain' (fun a b => b ≤ a) goals := by
  unfold solve at h
  split at h
  · exact absurd (congrArg Prod.fst h) (by simp)
  · split at h
    · exact absurd (congrArg Prod.fst h) (by simp)
    · have hlm := congrArg Prod.fst h
      simp only at hlm
      unfold lm at hlm
      split at hlm
      · exact absurd hlm (by simp)
      · simp only [Except.ok.injEq] at hlm
        have hgoals := congrArg Prod.snd hlm
        simp only at hgoals
        rw [← hgoals]
        apply lmIterate_chain
        · exact List.chain'_singleton _
        · rfl

/-- Witness for C7: a concrete run of `solve` that exhausts its single step
retry immediately and returns the one-entry history `[0]`. -/
theorem solve_goals_monotone_witness :
    List.Chain' (fun a b : ℚ => b ≤ a) [0] :=
  solve_goals_monotone kernel0 goal0 step0 clear data1 mesh1 none 1 10 1 1
    (List.replicate 1 ((1 : ℚ) / 10 ^ 7)) [0]
    ⟨none, some mesh1, some data1, some [5]⟩ rfl

end Pgrav3d

